import Mathlib

/-
  Verification of the photo-functions repository (photo_replacer.py,
  photo_merger.py, heic_to_jpg.py, mov_cleaner.py, fix_dates.py).

  The source is shallowly embedded: filenames are lists of characters,
  a filesystem is an association list from paths to file contents, and
  the external collaborators (shutil byte copy, exiftool metadata
  transplant, PIL decode) are modelled as explicit state updates whose
  success is governed by Boolean oracles passed as parameters.
-/

set_option maxRecDepth 8000

namespace PhotoFns

/-- A filename (or a single directory component), as its character list;
this mirrors a Python `str` used as a file name. -/
abbrev FName := List Char

/-- A directory path: the list of directory components from the filesystem
root. -/
abbrev DirPath := List FName

/-- A full path to a file: its directory components and its base filename.
Mirrors `pathlib.Path`, where `.name` is the base filename. -/
structure FPath where
  dirs : DirPath
  fname : FName
deriving DecidableEq

/-- One media file: its pixel/container bytes, the embedded preview image
bytes (empty when the container holds no extractable preview, matching a
zero-byte `exiftool -b -PreviewImage` output), and its embedded metadata
as an ordered tag-to-value association list. -/
structure MFile where
  bytes : List Nat
  preview : List Nat
  meta : List (FName × FName)
deriving DecidableEq

/-- The filesystem: an ordered association list from paths to files.  The
order is the traversal order seen by `os.walk` / `Path.rglob`. -/
abbrev FS := List (FPath × MFile)

/-- Python `str.lower()` on a filename (ASCII case folding). -/
def lowerN (s : FName) : FName := s.map Char.toLower

/-- Python `str.upper()` on a filename. -/
def upperN (s : FName) : FName := s.map Char.toUpper

/-- Length of the run of non-dot characters at the end of a name: the
number of characters strictly after the last dot, when a dot exists. -/
def tailRun (f : FName) : Nat :=
  (f.reverse.takeWhile (fun c => decide (c ≠ '.'))).length

/-- Index at which `pathlib.PurePath.suffix` starts inside the name.
pathlib takes the last dot at index `i` provided `0 < i < len - 1`;
otherwise the name has no suffix and we return the full length. -/
def sufStart (f : FName) : Nat :=
  if ('.' ∈ f) ∧ 0 < tailRun f ∧ tailRun f + 1 < f.length
  then f.length - 1 - tailRun f
  else f.length

/-- Computes `pathlib.PurePath.suffix` of a filename (includes the leading dot). -/
def suffixN (f : FName) : FName := f.drop (sufStart f)

/-- Computes `pathlib.PurePath.stem` of a filename. -/
def stemN (f : FName) : FName := f.take (sufStart f)

/-- Computes `path.with_suffix('.jpg')` on a base filename. -/
def withSuffixJpg (f : FName) : FName := stemN f ++ ".jpg".toList

/-- Index at which `os.path.splitext`'s extension starts: the last dot,
unless every character before it is a dot (then there is no extension). -/
def splitextStart (f : FName) : Nat :=
  if ('.' ∈ f) then
    let i := f.length - 1 - tailRun f
    if (f.take i).all (fun c => decide (c = '.')) then f.length else i
  else f.length

/-- Look a path up in the filesystem. -/
def fsLookup : FS → FPath → Option MFile
  | [], _ => none
  | e :: t, p => if e.1 = p then some e.2 else fsLookup t p

/-- Overwrite the file at a path in place, or create it when absent. -/
def fsSet : FS → FPath → MFile → FS
  | [], p, f => [(p, f)]
  | e :: t, p, f => if e.1 = p then (p, f) :: t else e :: fsSet t p f

/-- Delete the file at a path (`os.remove`). -/
def fsErase (fs : FS) (p : FPath) : FS := fs.filter (fun e => decide (e.1 ≠ p))

/-- All paths present in the filesystem, in traversal order. -/
def fsPaths (fs : FS) : List FPath := fs.map (fun e => e.1)

/-- First value bound to a tag in a metadata mapping. -/
def getTag : List (FName × FName) → FName → Option FName
  | [], _ => none
  | e :: t, k => if e.1 = k then some e.2 else getTag t k

/-- Whether a tag is present in a metadata mapping (Python `key in data`). -/
def hasTag (m : List (FName × FName)) (k : FName) : Bool := (getTag m k).isSome

/-- Overwrite (or add) one tag in a metadata mapping, keeping the rest;
models `exiftool -TAG=value` applied after a full tag copy. -/
def metaSet (m : List (FName × FName)) (k v : FName) : List (FName × FName) :=
  (k, v) :: m.filter (fun e => decide (e.1 ≠ k))

/- Asset Indexer: `PhotoReplacer.get_image_files` (photo_replacer.py) walks
a folder with `os.walk` keeping files whose lowercased pathlib suffix is in
an allow-list; `get_image_files` (photo_merger.py) does the same via
`Path.rglob` with a slightly larger allow-list. -/

/-- Generic recursive scan: every file under `root` whose lowercased
suffix is in `exts`, in filesystem order. -/
def scanFiles (fs : FS) (root : DirPath) (exts : List FName) : List FPath :=
  (fs.filter (fun e => decide (root <+: e.1.dirs ∧ lowerN (suffixN e.1.fname) ∈ exts))).map
    (fun e => e.1)

/-- The replacer's suffix allow-list `{'.jpg', '.jpeg', '.heic'}`. -/
def repExts : List FName := [".jpg".toList, ".jpeg".toList, ".heic".toList]

/-- The merger's suffix allow-list `{'.jpg', '.jpeg', '.png', '.heic'}`. -/
def mergeExts : List FName :=
  [".jpg".toList, ".jpeg".toList, ".png".toList, ".heic".toList]

/-- Embeds `PhotoReplacer.get_image_files`. -/
def get_image_files (fs : FS) (root : DirPath) : List FPath :=
  scanFiles fs root repExts

/-- Embeds `photo_merger.get_image_files`. -/
def get_image_files_merge (fs : FS) (root : DirPath) : List FPath :=
  scanFiles fs root mergeExts

/- Matcher: `PhotoReplacer.find_matching_photos` builds a Python dict from
the camera images keyed by lowercased filename (later entries overwrite
earlier ones), then pairs each phone image whose lowercased name is a key
with the dict entry. -/

/-- Lookup in the dict `{img.name.lower(): img for img in camera}`: the
fold mirrors the comprehension, so a later image with the same key
overwrites an earlier one. -/
def camera_dict_get (camera : List FPath) (k : FName) : Option FPath :=
  camera.foldl (fun acc c => if lowerN c.fname = k then some c else acc) none

/-- The matching loop of `find_matching_photos`, on already-scanned lists. -/
def find_matching_list (phone camera : List FPath) : List (FPath × FPath) :=
  phone.filterMap
    (fun p => (camera_dict_get camera (lowerN p.fname)).map (fun c => (p, c)))

/-- Embeds `PhotoReplacer.find_matching_photos`. -/
def find_matching_photos (fs : FS) (phoneRoot cameraRoot : DirPath) :
    List (FPath × FPath) :=
  find_matching_list (get_image_files fs phoneRoot) (get_image_files fs cameraRoot)

/-- The primary assets that match nothing in the reference set; this is the
skip test of `merge_photos` (`source_file.name.lower() not in
target_filenames`) read as a list of unmatched primaries. -/
def unmatched_primary (phone camera : List FPath) : List FPath :=
  phone.filter
    (fun a => decide (lowerN a.fname ∉ camera.map (fun b => lowerN b.fname)))

/- Reconciler, Replace mode: `PhotoReplacer.copy_file_with_metadata` and
`PhotoReplacer.replace_photos`.  The byte copy (`shutil.copy2`) and the
exiftool tag transplant are external calls whose success is governed by
the `copyOk` and `metaOk` oracles; on oracle failure the Python function
catches the exception and returns False.  Note the transplant source is
read from the filesystem AFTER the byte copy, exactly as exiftool runs
after `shutil.copy2` in the source. -/

/-- Embeds `PhotoReplacer.copy_file_with_metadata(source, target, original)`:
copy the file bytes (which carry the embedded tags with them), then
transplant all tags from `original` (if provided, else from `source`)
onto the target.  Returns the updated filesystem and the success flag. -/
def copy_file_with_metadata (copyOk metaOk : FPath → FPath → Bool) (fs : FS)
    (source target : FPath) (original : Option FPath) : FS × Bool :=
  if copyOk source target then
    match fsLookup fs source with
    | none => (fs, false)
    | some sf =>
      if metaOk (original.getD source) target then
        match fsLookup (fsSet fs target sf) (original.getD source),
              fsLookup (fsSet fs target sf) target with
        | some mf, some tf =>
          (fsSet (fsSet fs target sf) target { tf with meta := mf.meta }, true)
        | _, _ => (fsSet fs target sf, false)
      else (fsSet fs target sf, false)
  else (fs, false)

/-- State threaded through the replacement loop: the filesystem, the
`replaced_count`, and the `errors` list. -/
structure RepState where
  fs : FS
  count : Nat
  errors : List (FPath × FName)
deriving DecidableEq

/-- The error message recorded when the backup copy fails. -/
def backup_msg : FName := "Failed to create backup".toList

/-- The error message recorded when the destructive copy fails. -/
def replace_msg : FName := "Failed to replace with camera version".toList

/-- The reserved backup subdirectory name of Replace mode. -/
def backup_dir : FName := "_replaced_photos_backup".toList

/-- Computes `backup_path = backup_folder / phone_img.name`. -/
def backup_path (phoneRoot : DirPath) (p : FPath) : FPath :=
  ⟨phoneRoot ++ [backup_dir], p.fname⟩

/-- One iteration of the replacement loop of `replace_photos`: back the
phone photo up; on failure record the error and continue; otherwise copy
the camera version over the phone path with `original_path=phone_img`. -/
def replace_step (copyOk metaOk : FPath → FPath → Bool) (phoneRoot : DirPath)
    (st : RepState) (m : FPath × FPath) : RepState :=
  let bk := copy_file_with_metadata copyOk metaOk st.fs m.1
    (backup_path phoneRoot m.1) none
  if bk.2 then
    let rp := copy_file_with_metadata copyOk metaOk bk.1 m.2 m.1 (some m.1)
    if rp.2 then ⟨rp.1, st.count + 1, st.errors⟩
    else ⟨rp.1, st.count, st.errors ++ [(m.1, replace_msg)]⟩
  else ⟨bk.1, st.count, st.errors ++ [(m.1, backup_msg)]⟩

/-- Embeds `PhotoReplacer.replace_photos`. -/
def replace_photos (copyOk metaOk : FPath → FPath → Bool) (fs : FS)
    (phoneRoot cameraRoot : DirPath) : RepState :=
  (find_matching_photos fs phoneRoot cameraRoot).foldl
    (replace_step copyOk metaOk phoneRoot) ⟨fs, 0, []⟩

/- Reconciler, Merge mode: `photo_merger.copy_file_with_metadata` and
`photo_merger.merge_photos`. -/

/-- Embeds `photo_merger.copy_file_with_metadata(source, target)`: byte copy then
transplant the source path's tags onto the target. -/
def merge_copy_file_with_metadata (copyOk metaOk : FPath → FPath → Bool)
    (fs : FS) (source target : FPath) : FS × Bool :=
  if copyOk source target then
    match fsLookup fs source with
    | none => (fs, false)
    | some sf =>
      if metaOk source target then
        match fsLookup (fsSet fs target sf) source,
              fsLookup (fsSet fs target sf) target with
        | some mf, some tf =>
          (fsSet (fsSet fs target sf) target { tf with meta := mf.meta }, true)
        | _, _ => (fsSet fs target sf, false)
      else (fsSet fs target sf, false)
  else (fs, false)

/-- State threaded through the merge loop. -/
structure MergeState where
  fs : FS
  copied : Nat
  errors : List (FPath × FName)
deriving DecidableEq

/-- The error message recorded when a merge copy fails. -/
def merge_msg : FName := "Failed to copy file with metadata".toList

/-- The reserved backup subdirectory name of Merge mode (created at the
start of a merge run, but never written to by it). -/
def merge_backup_dir : FName := "_merged_photos_backup".toList

/-- Computes `target_path = target_folder / relpath(source_file, source_folder)`:
the mirrored relative path of a scanned source file inside the target. -/
def merge_target_of (sourceRoot targetRoot : DirPath) (sf : FPath) : FPath :=
  ⟨targetRoot ++ sf.dirs.drop sourceRoot.length, sf.fname⟩

/-- One iteration of the merge loop: skip when the lowercased name is
already present among the target filenames, else copy with metadata. -/
def merge_step (copyOk metaOk : FPath → FPath → Bool)
    (sourceRoot targetRoot : DirPath) (targetNames : List FName)
    (st : MergeState) (sf : FPath) : MergeState :=
  if lowerN sf.fname ∈ targetNames then st
  else
    let tgt := merge_target_of sourceRoot targetRoot sf
    let r := merge_copy_file_with_metadata copyOk metaOk st.fs sf tgt
    if r.2 then ⟨r.1, st.copied + 1, st.errors⟩
    else ⟨r.1, st.copied, st.errors ++ [(sf, merge_msg)]⟩

/-- The lowercased filenames of the target tree's scanned image files. -/
def target_names (fs : FS) (targetRoot : DirPath) : List FName :=
  (get_image_files_merge fs targetRoot).map (fun p => lowerN p.fname)

/-- Embeds `photo_merger.merge_photos`. -/
def merge_photos (copyOk metaOk : FPath → FPath → Bool) (fs : FS)
    (sourceRoot targetRoot : DirPath) : MergeState :=
  (get_image_files_merge fs sourceRoot).foldl
    (merge_step copyOk metaOk sourceRoot targetRoot (target_names fs targetRoot))
    ⟨fs, 0, []⟩

/- Companion-file cleanup: `mov_cleaner.mov_deleter`.  It lists the
directory (non-recursively), keeps names that upper-case to `*.HEIC` and
start with `IMG_`, strips the extension with `os.path.splitext`, and
removes the corresponding `.MOV` file when it exists.  No backup of any
kind is taken. -/

/-- Embeds `mov_cleaner.mov_deleter(directory_path)`. -/
def mov_deleter (fs : FS) (dir : DirPath) : FS :=
  let names := (fs.filter (fun e => decide (e.1.dirs = dir))).map (fun e => e.1.fname)
  let heic_bases :=
    (names.filter (fun f =>
      ".HEIC".toList.isSuffixOf (upperN f) && "IMG_".toList.isPrefixOf f)).map
      (fun f => f.take (splitextStart f))
  heic_bases.foldl (fun acc base =>
    let movPath : FPath := ⟨dir, base ++ ".MOV".toList⟩
    if (fsLookup acc movPath).isSome then fsErase acc movPath else acc) fs

/- Converter: `heic_to_jpg.has_edits`, `copy_metadata_to_jpg` and
`convert_heic_to_jpg`. -/

/-- The orientation tag forced to `1` after conversion. -/
def orientation_tag : FName := "Orientation".toList

/-- The two edit-indicator tags checked by `has_edits`. -/
def adjustment_tag : FName := "AdjustmentType".toList

/-- Second edit-indicator tag. -/
def hascrop_tag : FName := "HasCrop".toList

/-- Embeds `heic_to_jpg.has_edits`: true when `AdjustmentType` or `HasCrop` is
present in the file's metadata (exiftool JSON output). -/
def has_edits (f : MFile) : Bool :=
  hasTag f.meta adjustment_tag || hasTag f.meta hascrop_tag

/-- The full-decode path: `Image.open`, `ImageOps.exif_transpose`,
`convert('RGB').save(..., 'JPEG', quality=95)`.  The codec is an opaque
external service; re-encoding is modelled as an injective transformation
of the byte content. -/
def full_decode_bytes (b : List Nat) : List Nat := 0 :: b

/-- Computes `jpg_path = heic_file.with_suffix('.jpg')`. -/
def jpg_path_of (h : FPath) : FPath := ⟨h.dirs, withSuffixJpg h.fname⟩

/-- State threaded through the conversion loop: filesystem plus the
`converted_count`, `edited_count`, `original_count` tallies and errors. -/
structure ConvState where
  fs : FS
  converted : Nat
  edited : Nat
  original : Nat
  errors : List (FPath × FName)
deriving DecidableEq

/-- The error message recorded when `copy_metadata_to_jpg` fails. -/
def meta_fail_msg : FName := "Failed to copy metadata".toList

/-- Abstracted `str(e)` text of a caught per-file exception. -/
def exc_msg : FName := "exception".toList

/-- Embeds `heic_to_jpg.copy_metadata_to_jpg(heic, jpg)`: copy all tags from the
HEIC onto the JPG and force `-orientation#=1`, in place.  Fails (returns
False, filesystem unchanged) when the exiftool call fails. -/
def copy_metadata_to_jpg (metaOk : FPath → FPath → Bool) (fs : FS)
    (heic jpg : FPath) : FS × Bool :=
  if metaOk heic jpg then
    match fsLookup fs heic, fsLookup fs jpg with
    | some mf, some jf =>
      (fsSet fs jpg { jf with meta := metaSet mf.meta orientation_tag "1".toList }, true)
    | _, _ => (fs, false)
  else (fs, false)

/-- Whether the conversion loop must take the full-decode path: the jpg
path does not exist or has size zero (`not os.path.exists(jpg_path) or
os.path.getsize(jpg_path) == 0`). -/
def conv_needFull (fs0 : FS) (jpg : FPath) : Bool :=
  match fsLookup fs0 jpg with
  | none => true
  | some jf => jf.bytes.isEmpty

/-- The tail of one conversion iteration: copy metadata onto the jpg with
orientation forced to 1; on success bump `converted_count` and delete the
original when requested, on failure record the error. -/
def conv_meta_step (mo : FPath → FPath → Bool) (del : Bool) (heic jpg : FPath)
    (st : ConvState) : ConvState :=
  if (copy_metadata_to_jpg mo st.fs heic jpg).2 then
    ⟨if del then fsErase (copy_metadata_to_jpg mo st.fs heic jpg).1 heic
      else (copy_metadata_to_jpg mo st.fs heic jpg).1,
      st.converted + 1, st.edited, st.original, st.errors⟩
  else
    ⟨(copy_metadata_to_jpg mo st.fs heic jpg).1, st.converted, st.edited,
      st.original, st.errors ++ [(heic, meta_fail_msg)]⟩

/-- One iteration of the conversion loop of `convert_heic_to_jpg`.  For an
edited file the preview bytes are dumped to the jpg path (`open(...,'wb')`
creates the file even when exiftool writes zero bytes); when the jpg is
absent or empty a full decode runs, bumping `original_count` (`decodeOk`
false models a decode exception, recorded and skipped), otherwise
`edited_count` is bumped; finally the metadata step runs. -/
def conv_step (decodeOk : FPath → Bool) (metaOk : FPath → FPath → Bool)
    (deleteOriginal : Bool) (st : ConvState) (heic : FPath) : ConvState :=
  match fsLookup st.fs heic with
  | none => { st with errors := st.errors ++ [(heic, exc_msg)] }
  | some hf =>
    let fs0 := if has_edits hf
      then fsSet st.fs (jpg_path_of heic) ⟨hf.preview, [], []⟩ else st.fs
    if conv_needFull fs0 (jpg_path_of heic) then
      if decodeOk heic then
        conv_meta_step metaOk deleteOriginal heic (jpg_path_of heic)
          ⟨fsSet fs0 (jpg_path_of heic) ⟨full_decode_bytes hf.bytes, [], []⟩,
            st.converted, st.edited, st.original + 1, st.errors⟩
      else
        ⟨fs0, st.converted, st.edited, st.original,
          st.errors ++ [(heic, exc_msg)]⟩
    else
      conv_meta_step metaOk deleteOriginal heic (jpg_path_of heic)
        ⟨fs0, st.converted, st.edited + 1, st.original, st.errors⟩

/-- The rglob scan of `convert_heic_to_jpg`: files under the root whose
lowercased suffix is `.heic`. -/
def heic_scan (fs : FS) (root : DirPath) : List FPath :=
  scanFiles fs root [".heic".toList]

/-- Embeds `heic_to_jpg.convert_heic_to_jpg(folder_path, delete_original)`. -/
def convert_heic_to_jpg (decodeOk : FPath → Bool)
    (metaOk : FPath → FPath → Bool) (fs : FS) (root : DirPath)
    (deleteOriginal : Bool) : ConvState :=
  (heic_scan fs root).foldl (conv_step decodeOk metaOk deleteOriginal)
    ⟨fs, 0, 0, 0, []⟩

/- Recognized date tags: the priority list of
`fix_dates.get_creation_date_exiftool`. -/

/-- The recognized date tag names, in priority order. -/
def date_fields : List FName :=
  ["ContentCreateDate".toList, "CreationDate".toList, "DateTimeOriginal".toList,
   "CreateDate".toList, "FileModifyDate".toList]

/-- Reading the recognized date of a metadata mapping: the first of the
recognized tags that is present with a non-empty value (the `strptime`
parsing of the value is abstracted away). -/
def recognized_date (m : List (FName × FName)) : Option FName :=
  date_fields.foldl
    (fun acc k =>
      match acc with
      | some d => some d
      | none =>
        match getTag m k with
        | some v => if v.isEmpty then none else some v
        | none => none)
    none

/- Concrete fixtures used by the claim theorems and witnesses. -/

/-- Phone (primary) root of the worked example. -/
def phoneRootX : DirPath := ["phone".toList]

/-- Camera (reference) root of the worked example. -/
def camRootX : DirPath := ["camera".toList]

/-- The primary `IMG_1.JPG`. -/
def phonePathX : FPath := ⟨phoneRootX, "IMG_1.JPG".toList⟩

/-- The reference `IMG_1.JPG`. -/
def camPathX : FPath := ⟨camRootX, "IMG_1.JPG".toList⟩

/-- The `DateTimeOriginal` tag name. -/
def dto_tag : FName := "DateTimeOriginal".toList

/-- The date carried by the primary asset before the run. -/
def orig_date : FName := "2021:05:01 10:00:00".toList

/-- The primary asset: its own pixels and a date tag. -/
def phoneFileX : MFile := ⟨[1, 2, 3], [], [(dto_tag, orig_date)]⟩

/-- The reference asset: different pixels, no date tag. -/
def camFileX : MFile := ⟨[7, 8, 9], [], []⟩

/-- The two-file filesystem of the worked example. -/
def fsX : FS := [(phonePathX, phoneFileX), (camPathX, camFileX)]

/-- An oracle under which every external call succeeds. -/
def okOracle : FPath → FPath → Bool := fun _ _ => true

/-- An oracle that fails exactly when the target lies in the replacer's
backup subdirectory, making every backup copy fail. -/
def failBackupOracle : FPath → FPath → Bool :=
  fun _ t => decide (t.dirs ≠ phoneRootX ++ [backup_dir])

/-- First reference asset of the duplicate-key example. -/
def camPathY1 : FPath := ⟨["cam1".toList], "IMG_1.JPG".toList⟩

/-- Second reference asset with the same lowercased filename. -/
def camPathY2 : FPath := ⟨["cam2".toList], "IMG_1.JPG".toList⟩

/-- A file living inside the replacer's backup subdirectory. -/
def bkNestPath : FPath := ⟨phoneRootX ++ [backup_dir], "IMG_9.jpg".toList⟩

/-- Its content. -/
def bkNestFile : MFile := ⟨[5], [], []⟩

/-- A camera file whose lowercased name matches the nested backup file. -/
def camPathZ : FPath := ⟨camRootX, "img_9.JPG".toList⟩


/-- Source root of the merge example. -/
def srcRootM : DirPath := ["srcm".toList]

/-- Target root of the merge example. -/
def tgtRootM : DirPath := ["tgtm".toList]

/-- The single source asset of the merge example. -/
def srcPathM : FPath := ⟨srcRootM, "A.jpg".toList⟩

/-- Its content, carrying a date tag. -/
def fileM : MFile := ⟨[4], [], [(dto_tag, orig_date)]⟩

/-- An oracle under which every external call fails. -/
def noneOracle : FPath → FPath → Bool := fun _ _ => false


/-- An always-succeeding decode oracle. -/
def okDecode : FPath → Bool := fun _ => true

/-- Directory of the MOV-cleanup example. -/
def movDirD : DirPath := ["d".toList]

/-- The HEIC whose presence triggers the MOV deletion. -/
def heicPathD : FPath := ⟨movDirD, "IMG_2.HEIC".toList⟩

/-- Its content. -/
def heicFileD : MFile := ⟨[1], [], []⟩

/-- The companion MOV file that gets deleted. -/
def movPathD : FPath := ⟨movDirD, "IMG_2.MOV".toList⟩

/-- Its content; no copy of it survives anywhere after the cleanup. -/
def movFileD : MFile := ⟨[9, 9], [], []⟩

/-- Root of the conversion example. -/
def heicRootC : DirPath := ["hc".toList]

/-- A HEIC asset to convert. -/
def heicPathC : FPath := ⟨heicRootC, "IMG_3.HEIC".toList⟩

/-- An unedited HEIC with a date tag. -/
def heicFileC : MFile := ⟨[2, 2], [], [(dto_tag, orig_date)]⟩

/-- An edited HEIC (`HasCrop` present) whose extractable preview is
empty. -/
def editedFileC : MFile := ⟨[3, 3], [], [(hascrop_tag, "true".toList), (dto_tag, orig_date)]⟩

/- Basic filesystem lemmas. -/

theorem fsLookup_set (fs : FS) (p : FPath) (f : MFile) (q : FPath) :
    fsLookup (fsSet fs p f) q = if q = p then some f else fsLookup fs q := by
  induction fs with
  | nil =>
    by_cases h : q = p
    · simp [fsSet, fsLookup, h]
    · have h2 : ¬ p = q := fun hh => h hh.symm
      simp [fsSet, fsLookup, h, h2]
  | cons e t ih =>
    by_cases hep : e.1 = p
    · by_cases hq : q = p
      · simp [fsSet, fsLookup, hep, hq]
      · have h2 : ¬ p = q := fun hh => hq hh.symm
        have h3 : ¬ e.1 = q := fun hh => hq (hh.symm.trans hep)
        simp [fsSet, fsLookup, hep, hq, h2, h3]
    · by_cases heq : e.1 = q
      · have hqp : ¬ q = p := fun hh => hep (heq.trans hh)
        simp [fsSet, fsLookup, hep, heq, hqp]
      · simp [fsSet, fsLookup, hep, heq, ih]

theorem fsLookup_set_self (fs : FS) (p : FPath) (f : MFile) :
    fsLookup (fsSet fs p f) p = some f := by
  simp [fsLookup_set]

theorem fsLookup_set_ne (fs : FS) (p : FPath) (f : MFile) (q : FPath)
    (h : q ≠ p) : fsLookup (fsSet fs p f) q = fsLookup fs q := by
  simp [fsLookup_set, h]

theorem fsLookup_erase (fs : FS) (p q : FPath) :
    fsLookup (fsErase fs p) q = if q = p then none else fsLookup fs q := by
  induction fs with
  | nil => simp [fsErase, fsLookup]
  | cons e t ih =>
    unfold fsErase at ih ⊢
    by_cases hep : e.1 = p
    · rw [List.filter_cons_of_neg (by simp [hep])]
      rw [ih]
      by_cases hq : q = p
      · simp [hq]
      · have h3 : ¬ e.1 = q := fun hh => hq (hh.symm.trans hep)
        simp [fsLookup, hq, h3]
    · rw [List.filter_cons_of_pos (by simp [hep])]
      by_cases heq : e.1 = q
      · have hqp : ¬ q = p := fun hh => hep (heq.trans hh)
        simp [fsLookup, heq, hqp]
      · simp only [fsLookup, heq, if_neg heq]
        exact ih

theorem fsLookup_erase_ne (fs : FS) (p q : FPath) (h : q ≠ p) :
    fsLookup (fsErase fs p) q = fsLookup fs q := by
  simp [fsLookup_erase, h]

theorem fsErase_sublist (fs : FS) (p : FPath) : (fsErase fs p).Sublist fs :=
  List.filter_sublist fs

theorem fsPaths_cons (e : FPath × MFile) (t : FS) :
    fsPaths (e :: t) = e.1 :: fsPaths t := rfl

theorem mem_fsPaths_set (fs : FS) (p : FPath) (f : MFile) (q : FPath)
    (h : q ∈ fsPaths fs) : q ∈ fsPaths (fsSet fs p f) := by
  induction fs with
  | nil => simp [fsPaths] at h
  | cons e t ih =>
    rw [fsPaths_cons, List.mem_cons] at h
    by_cases hep : e.1 = p
    · rw [show fsSet (e :: t) p f = (p, f) :: t from by simp [fsSet, hep]]
      rw [fsPaths_cons, List.mem_cons]
      rcases h with h | h
      · exact Or.inl (h.trans hep)
      · exact Or.inr h
    · rw [show fsSet (e :: t) p f = e :: fsSet t p f from by simp [fsSet, hep]]
      rw [fsPaths_cons, List.mem_cons]
      rcases h with h | h
      · exact Or.inl h
      · exact Or.inr (ih h)

theorem mem_fsPaths_set_cases (fs : FS) (p : FPath) (f : MFile) (q : FPath)
    (h : q ∈ fsPaths (fsSet fs p f)) : q ∈ fsPaths fs ∨ q = p := by
  induction fs with
  | nil =>
    rw [show fsSet [] p f = [(p, f)] from rfl, fsPaths_cons, List.mem_cons] at h
    rcases h with h | h
    · exact Or.inr h
    · simp [fsPaths] at h
  | cons e t ih =>
    by_cases hep : e.1 = p
    · rw [show fsSet (e :: t) p f = (p, f) :: t from by simp [fsSet, hep],
          fsPaths_cons, List.mem_cons] at h
      rcases h with h | h
      · exact Or.inr h
      · exact Or.inl (by rw [fsPaths_cons]; exact List.mem_cons_of_mem _ h)
    · rw [show fsSet (e :: t) p f = e :: fsSet t p f from by simp [fsSet, hep],
          fsPaths_cons, List.mem_cons] at h
      rcases h with h | h
      · exact Or.inl (by rw [fsPaths_cons]; exact List.mem_cons.mpr (Or.inl h))
      · rcases ih h with hh | hh
        · exact Or.inl (by rw [fsPaths_cons]; exact List.mem_cons_of_mem _ hh)
        · exact Or.inr hh

theorem mem_fsPaths_erase (fs : FS) (p q : FPath)
    (h : q ∈ fsPaths (fsErase fs p)) : q ∈ fsPaths fs := by
  unfold fsErase fsPaths at *
  rcases List.mem_map.mp h with ⟨e, he, hq⟩
  exact List.mem_map.mpr ⟨e, (List.filter_sublist fs).mem he, hq⟩

theorem fsLookup_isSome_iff_mem_paths (fs : FS) (p : FPath) :
    (fsLookup fs p).isSome ↔ p ∈ fsPaths fs := by
  induction fs with
  | nil => simp [fsLookup, fsPaths]
  | cons e t ih =>
    rw [fsPaths_cons, List.mem_cons]
    by_cases he : e.1 = p
    · simp [fsLookup, he]
    · rw [show fsLookup (e :: t) p = if e.1 = p then some e.2 else fsLookup t p from rfl,
          if_neg he, ih]
      constructor
      · exact Or.inr
      · intro hh
        rcases hh with hh | hh
        · exact absurd hh.symm he
        · exact hh

theorem fsLookup_isSome_of_mem (fs : FS) (p : FPath) (f : MFile)
    (h : (p, f) ∈ fs) : (fsLookup fs p).isSome := by
  rw [fsLookup_isSome_iff_mem_paths]
  exact List.mem_map.mpr ⟨(p, f), h, rfl⟩

theorem mem_scanFiles_iff (fs : FS) (root : DirPath) (exts : List FName)
    (p : FPath) :
    p ∈ scanFiles fs root exts ↔
      p ∈ fsPaths fs ∧ root <+: p.dirs ∧ lowerN (suffixN p.fname) ∈ exts := by
  unfold scanFiles fsPaths
  constructor
  · intro h
    rcases List.mem_map.mp h with ⟨e, he, hq⟩
    have hmem := List.mem_filter.mp he
    refine ⟨List.mem_map.mpr ⟨e, hmem.1, hq⟩, ?_⟩
    have := of_decide_eq_true hmem.2
    exact hq ▸ this
  · intro ⟨hmem, hcond⟩
    rcases List.mem_map.mp hmem with ⟨e, he, hq⟩
    exact List.mem_map.mpr
      ⟨e, List.mem_filter.mpr ⟨he, decide_eq_true (hq ▸ hcond)⟩, hq⟩

theorem camera_dict_get_eq_find_rev (camera : List FPath) (k : FName) :
    camera_dict_get camera k =
      camera.reverse.find? (fun c => decide (lowerN c.fname = k)) := by
  unfold camera_dict_get
  suffices h : ∀ (l : List FPath) (acc : Option FPath),
      l.foldl (fun acc c => if lowerN c.fname = k then some c else acc) acc =
        match l.reverse.find? (fun c => decide (lowerN c.fname = k)) with
        | some x => some x
        | none => acc by
    rw [h camera none]
    cases camera.reverse.find? (fun c => decide (lowerN c.fname = k)) <;> rfl
  intro l
  induction l with
  | nil => intro acc; rfl
  | cons c t ih =>
    intro acc
    rw [List.foldl_cons, ih, List.reverse_cons, List.find?_append]
    cases hf : t.reverse.find? (fun c => decide (lowerN c.fname = k)) with
    | some x => rfl
    | none =>
      by_cases hc : lowerN c.fname = k
      · simp [List.find?, hc]
      · simp [List.find?, hc]

theorem camera_dict_get_isSome_iff (camera : List FPath) (k : FName) :
    (camera_dict_get camera k).isSome ↔
      k ∈ camera.map (fun b => lowerN b.fname) := by
  rw [camera_dict_get_eq_find_rev]
  constructor
  · intro h
    cases hf : camera.reverse.find? (fun c => decide (lowerN c.fname = k)) with
    | none => rw [hf] at h; simp at h
    | some c =>
      have hc : lowerN c.fname = k := by
        have := List.find?_some hf
        simpa using this
      have hmem : c ∈ camera := List.mem_reverse.mp (List.mem_of_find?_eq_some hf)
      exact List.mem_map.mpr ⟨c, hmem, hc⟩
  · intro h
    rcases List.mem_map.mp h with ⟨c, hmem, hk⟩
    have : camera.reverse.find? (fun c => decide (lowerN c.fname = k)) ≠ none := by
      intro hn
      have := List.find?_eq_none.mp hn c (List.mem_reverse.mpr hmem)
      exact this (decide_eq_true hk)
    cases hf : camera.reverse.find? (fun c => decide (lowerN c.fname = k)) with
    | none => exact absurd hf this
    | some c' => simp

theorem find_matching_fst (phone camera : List FPath) :
    (find_matching_list phone camera).map Prod.fst =
      phone.filter (fun a => (camera_dict_get camera (lowerN a.fname)).isSome) := by
  unfold find_matching_list
  induction phone with
  | nil => rfl
  | cons a t ih =>
    rw [List.filterMap_cons, List.filter_cons]
    cases hd : camera_dict_get camera (lowerN a.fname) with
    | none => simpa [hd] using ih
    | some c => simpa [hd] using ih

theorem mem_find_matching (phone camera : List FPath) (a c : FPath)
    (ha : a ∈ phone) (hc : camera_dict_get camera (lowerN a.fname) = some c) :
    (a, c) ∈ find_matching_list phone camera := by
  unfold find_matching_list
  exact List.mem_filterMap.mpr ⟨a, ha, by rw [hc]; rfl⟩

theorem fsSet_fsSet (fs : FS) (p : FPath) (f g : MFile) :
    fsSet (fsSet fs p f) p g = fsSet fs p g := by
  induction fs with
  | nil => simp [fsSet]
  | cons e t ih =>
    by_cases hep : e.1 = p
    · simp [fsSet, hep]
    · simp [fsSet, hep, ih]

theorem copy_none_eq (co mo : FPath → FPath → Bool) (fs : FS) (s t : FPath) :
    copy_file_with_metadata co mo fs s t none =
      if co s t then
        match fsLookup fs s with
        | none => (fs, false)
        | some sf => (fsSet fs t sf, mo s t)
      else (fs, false) := by
  unfold copy_file_with_metadata
  by_cases hco : co s t
  · rw [if_pos hco, if_pos hco]
    cases hs : fsLookup fs s with
    | none => rfl
    | some sf =>
      have hls : fsLookup (fsSet fs t sf) s = some sf := by
        by_cases hst : s = t
        · rw [hst]; exact fsLookup_set_self fs t sf
        · rw [fsLookup_set_ne fs t sf s hst]; exact hs
      by_cases hmo : mo s t
      · simp [hmo, hls, fsLookup_set_self, fsSet_fsSet]
      · have hmo2 : mo s t = false := by
          revert hmo; cases mo s t <;> simp
        simp [hmo2]
  · rw [if_neg hco, if_neg hco]

theorem copy_self_original_eq (co mo : FPath → FPath → Bool) (fs : FS)
    (s t : FPath) :
    copy_file_with_metadata co mo fs s t (some t) =
      if co s t then
        match fsLookup fs s with
        | none => (fs, false)
        | some sf => (fsSet fs t sf, mo t t)
      else (fs, false) := by
  unfold copy_file_with_metadata
  by_cases hco : co s t
  · rw [if_pos hco, if_pos hco]
    cases hs : fsLookup fs s with
    | none => rfl
    | some sf =>
      by_cases hmo : mo t t
      · simp [hmo, fsLookup_set_self, fsSet_fsSet]
      · have hmo2 : mo t t = false := by
          revert hmo; cases mo t t <;> simp
        simp [hmo2]
  · rw [if_neg hco, if_neg hco]

theorem copy_none_source_unchanged (co mo : FPath → FPath → Bool)
    (fs : FS) (s t : FPath) :
    fsLookup (copy_file_with_metadata co mo fs s t none).1 s = fsLookup fs s := by
  rw [copy_none_eq]
  by_cases hco : co s t
  · rw [if_pos hco]
    cases hs : fsLookup fs s with
    | none => rw [hs]
    | some sf =>
      show fsLookup (fsSet fs t sf) s = some sf
      by_cases hst : s = t
      · rw [hst]
        exact fsLookup_set_self fs t sf
      · rw [fsLookup_set_ne fs t sf s hst]
        exact hs
  · rw [if_neg hco]

theorem copy_only_target (co mo : FPath → FPath → Bool) (fs : FS)
    (s t : FPath) (orig : Option FPath) (q : FPath) (h : q ≠ t) :
    fsLookup (copy_file_with_metadata co mo fs s t orig).1 q = fsLookup fs q := by
  unfold copy_file_with_metadata
  by_cases hco : co s t
  · rw [if_pos hco]
    cases hs : fsLookup fs s with
    | none => rfl
    | some sf =>
      by_cases hmo : mo (orig.getD s) t
      · simp only [hmo, if_true]
        cases h1 : fsLookup (fsSet fs t sf) (orig.getD s) with
        | none =>
          simp only [h1]
          exact fsLookup_set_ne fs t sf q h
        | some mf =>
          simp only [h1, fsLookup_set_self]
          show fsLookup (fsSet (fsSet fs t sf) t _) q = fsLookup fs q
          rw [fsLookup_set_ne _ t _ q h, fsLookup_set_ne fs t sf q h]
      · have hmo2 : mo (orig.getD s) t = false := by
          revert hmo; cases mo (orig.getD s) t <;> simp
        simp only [hmo2, if_false, Bool.false_eq_true]
        exact fsLookup_set_ne fs t sf q h
  · rw [if_neg hco]

/-- C1: the claim states that after Replace the primary path holds the
reference's pixels but still carries the original primary metadata, its
recognized date tag reading `2021:05:01 10:00:00`.  Evaluating the code on
the spec's own scenario shows the replaced file carries the REFERENCE's
metadata instead: `copy_file_with_metadata(camera, phone,
original_path=phone)` first overwrites the phone path with the camera
file, then transplants tags from `original_path` — which is the phone
path, already overwritten — so the original date tag is lost, although
the backup copy does keep it. -/
theorem replace_keeps_reference_metadata_not_original :
    recognized_date phoneFileX.meta = some orig_date ∧
    fsLookup (replace_photos okOracle okOracle fsX phoneRootX camRootX).fs
      phonePathX = some camFileX ∧
    (match fsLookup (replace_photos okOracle okOracle fsX phoneRootX camRootX).fs
        phonePathX with
     | some f => recognized_date f.meta
     | none => none) = none ∧
    fsLookup (replace_photos okOracle okOracle fsX phoneRootX camRootX).fs
      (backup_path phoneRootX phonePathX) = some phoneFileX := by
  decide


/-- C3: in Replace mode the destructive write over the primary path runs
only after the backup copy succeeded; when the backup call fails, the step
leaves the primary asset unchanged, records a backup error without
counting a replacement, and the loop continues with the remaining
matches. -/
theorem replace_backup_gates_destruction (co mo : FPath → FPath → Bool)
    (pr : DirPath) (st : RepState) (m : FPath × FPath)
    (rest : List (FPath × FPath)) :
    ((copy_file_with_metadata co mo st.fs m.1 (backup_path pr m.1) none).2 = false →
      replace_step co mo pr st m =
        ⟨(copy_file_with_metadata co mo st.fs m.1 (backup_path pr m.1) none).1,
          st.count, st.errors ++ [(m.1, backup_msg)]⟩ ∧
      fsLookup (replace_step co mo pr st m).fs m.1 = fsLookup st.fs m.1) ∧
    (fsLookup (replace_step co mo pr st m).fs m.1 ≠ fsLookup st.fs m.1 →
      (copy_file_with_metadata co mo st.fs m.1 (backup_path pr m.1) none).2 = true) ∧
    List.foldl (replace_step co mo pr) st (m :: rest) =
      List.foldl (replace_step co mo pr) (replace_step co mo pr st m) rest := by
  have hstep : (copy_file_with_metadata co mo st.fs m.1 (backup_path pr m.1) none).2 = false →
      replace_step co mo pr st m =
        ⟨(copy_file_with_metadata co mo st.fs m.1 (backup_path pr m.1) none).1,
          st.count, st.errors ++ [(m.1, backup_msg)]⟩ := by
    intro hf
    unfold replace_step
    simp [hf]
  refine ⟨?_, ?_, ?_⟩
  · intro hf
    refine ⟨hstep hf, ?_⟩
    rw [hstep hf]
    exact copy_none_source_unchanged co mo st.fs m.1 (backup_path pr m.1)
  · intro hch
    by_cases hbk : (copy_file_with_metadata co mo st.fs m.1 (backup_path pr m.1) none).2 = true
    · exact hbk
    · have hf : (copy_file_with_metadata co mo st.fs m.1 (backup_path pr m.1) none).2 = false := by
        revert hbk
        cases (copy_file_with_metadata co mo st.fs m.1 (backup_path pr m.1) none).2 <;> simp
      exfalso
      apply hch
      rw [hstep hf]
      exact copy_none_source_unchanged co mo st.fs m.1 (backup_path pr m.1)
  · rfl

/-- Witness for C3 at a concrete input: with an oracle that fails any
write into the backup subdirectory, the single match is abandoned, the
error is recorded, and the primary file keeps its original content. -/
theorem replace_backup_gates_destruction_witness :
    replace_step failBackupOracle okOracle phoneRootX ⟨fsX, 0, []⟩
        (phonePathX, camPathX) =
      ⟨fsX, 0, [(phonePathX, backup_msg)]⟩ ∧
    fsLookup (replace_step failBackupOracle okOracle phoneRootX ⟨fsX, 0, []⟩
        (phonePathX, camPathX)).fs phonePathX = fsLookup fsX phonePathX := by
  have h := (replace_backup_gates_destruction failBackupOracle okOracle
    phoneRootX ⟨fsX, 0, []⟩ (phonePathX, camPathX) []).1 (by decide)
  refine ⟨?_, h.2⟩
  rw [h.1]
  decide

/-- C4: every matched pair carries equal lowercased filenames; the
unmatched primary list equals the primaries filtered to those heading no
matched pair; and no primary is both matched and unmatched. -/
theorem matcher_partition (A B : List FPath) :
    (∀ pr ∈ find_matching_list A B, lowerN pr.2.fname = lowerN pr.1.fname) ∧
    unmatched_primary A B =
      A.filter (fun a => decide (a ∉ (find_matching_list A B).map Prod.fst)) ∧
    ∀ a ∈ (find_matching_list A B).map Prod.fst, a ∉ unmatched_primary A B := by
  have hmem : ∀ a : FPath, a ∈ A →
      (a ∈ (find_matching_list A B).map Prod.fst ↔
        (camera_dict_get B (lowerN a.fname)).isSome) := by
    intro a ha
    rw [find_matching_fst]
    constructor
    · intro h
      exact (List.mem_filter.mp h).2
    · intro h
      exact List.mem_filter.mpr ⟨ha, h⟩
  refine ⟨?_, ?_, ?_⟩
  · intro pr hpr
    rcases List.mem_filterMap.mp hpr with ⟨a, ha, hf⟩
    cases hd : camera_dict_get B (lowerN a.fname) with
    | none => rw [hd] at hf; cases hf
    | some c =>
      rw [hd] at hf
      have hpre : (a, c) = pr := by
        simpa using hf
      rw [camera_dict_get_eq_find_rev] at hd
      have hc : lowerN c.fname = lowerN a.fname := by
        have := List.find?_some hd
        simpa using this
      rw [← hpre]
      exact hc
  · apply List.filter_congr
    intro a ha
    have hiff : (lowerN a.fname ∉ B.map (fun b => lowerN b.fname)) ↔
        (a ∉ (find_matching_list A B).map Prod.fst) := by
      rw [← camera_dict_get_isSome_iff, ← hmem a ha]
    exact decide_eq_decide.mpr hiff
  · intro a hfst hun
    rw [find_matching_fst] at hfst
    have ha : a ∈ A := (List.mem_filter.mp hfst).1
    have hsome := (List.mem_filter.mp hfst).2
    have hkey : lowerN a.fname ∈ B.map (fun b => lowerN b.fname) :=
      (camera_dict_get_isSome_iff B (lowerN a.fname)).mp hsome
    have hnkey := (List.mem_filter.mp hun).2
    exact (of_decide_eq_true hnkey) hkey

/-- Witness for C4 at a concrete input: `IMG_1.JPG` on both sides matches
itself, and the lists partition. -/
theorem matcher_partition_witness :
    lowerN camPathX.fname = lowerN phonePathX.fname ∧
    unmatched_primary [phonePathX] [camPathX] =
      [phonePathX].filter (fun a => decide
        (a ∉ (find_matching_list [phonePathX] [camPathX]).map Prod.fst)) ∧
    phonePathX ∉ unmatched_primary [phonePathX] [camPathX] := by
  have h := matcher_partition [phonePathX] [camPathX]
  exact ⟨h.1 (phonePathX, camPathX) (by decide), h.2.1,
    h.2.2 phonePathX (by decide)⟩

/-- C5 counterexample: with two reference assets sharing a lowercased
filename, the first-discovered one is `camPathY1`, yet the produced match
pairs the primary with `camPathY2` — the last-discovered wins, because a
later dict-comprehension entry overwrites an earlier one. -/
theorem matcher_first_wins_false :
    List.find? (fun c => decide (lowerN c.fname = lowerN phonePathX.fname))
        [camPathY1, camPathY2] = some camPathY1 ∧
    camPathY1 ≠ camPathY2 ∧
    find_matching_list [phonePathX] [camPathY1, camPathY2] =
      [(phonePathX, camPathY2)] := by
  decide

/-- C5 amended: when reference filenames collide, each primary is paired
with the LAST-discovered reference asset bearing its key, and each
occurrence of a primary heads at most one pair (the matched firsts form a
sublist of the primary list). -/
theorem matcher_last_wins (A B : List FPath) :
    (∀ pr ∈ find_matching_list A B,
      B.reverse.find? (fun c => decide (lowerN c.fname = lowerN pr.1.fname)) =
        some pr.2) ∧
    ((find_matching_list A B).map Prod.fst).Sublist A := by
  constructor
  · intro pr hpr
    rcases List.mem_filterMap.mp hpr with ⟨a, ha, hf⟩
    cases hd : camera_dict_get B (lowerN a.fname) with
    | none => rw [hd] at hf; cases hf
    | some c =>
      rw [hd] at hf
      have hpre : (a, c) = pr := by
        simpa using hf
      rw [camera_dict_get_eq_find_rev] at hd
      rw [← hpre]
      exact hd
  · rw [find_matching_fst]
    exact List.filter_sublist A

/-- Witness for C5's amended statement at a concrete input. -/
theorem matcher_last_wins_witness :
    List.find? (fun c => decide (lowerN c.fname = lowerN phonePathX.fname))
        (List.reverse [camPathY1, camPathY2]) = some camPathY2 ∧
    ((find_matching_list [phonePathX] [camPathY1, camPathY2]).map
      Prod.fst).Sublist [phonePathX] := by
  have h := matcher_last_wins [phonePathX] [camPathY1, camPathY2]
  exact ⟨h.1 (phonePathX, camPathY2) (by decide), h.2⟩

/-- C9: the Asset Indexer applies no exclusion for the reserved backup
subdirectory: a file inside it with an allow-listed suffix is indexed,
and when its lowercased name hits the reference dict it participates in
matching like any other primary asset. -/
theorem backup_subdirectory_indexed (fs : FS) (root : DirPath) (nm : FName)
    (f : MFile) (camera : List FPath)
    (hmem : ((⟨root ++ [backup_dir], nm⟩ : FPath), f) ∈ fs)
    (hext : lowerN (suffixN nm) ∈ repExts) :
    (⟨root ++ [backup_dir], nm⟩ : FPath) ∈ get_image_files fs root ∧
    ∀ c, camera_dict_get camera (lowerN nm) = some c →
      ((⟨root ++ [backup_dir], nm⟩ : FPath), c) ∈
        find_matching_list (get_image_files fs root) camera := by
  have hidx : (⟨root ++ [backup_dir], nm⟩ : FPath) ∈ get_image_files fs root := by
    rw [get_image_files, mem_scanFiles_iff]
    exact ⟨List.mem_map.mpr ⟨_, hmem, rfl⟩, ⟨[backup_dir], rfl⟩, hext⟩
  exact ⟨hidx, fun c hc => mem_find_matching _ _ _ _ hidx hc⟩

/-- Witness for C9 at a concrete input: a jpg sitting inside
`_replaced_photos_backup` is indexed and matched against a same-named
camera file. -/
theorem backup_subdirectory_indexed_witness :
    bkNestPath ∈ get_image_files [(bkNestPath, bkNestFile)] phoneRootX ∧
    (bkNestPath, camPathZ) ∈
      find_matching_list (get_image_files [(bkNestPath, bkNestFile)] phoneRootX)
        [camPathZ] := by
  have h := backup_subdirectory_indexed [(bkNestPath, bkNestFile)] phoneRootX
    ("IMG_9.jpg".toList) bkNestFile [camPathZ] (by decide) (by decide)
  exact ⟨h.1, h.2 camPathZ (by decide)⟩


theorem merge_copy_eq (co mo : FPath → FPath → Bool) (fs : FS) (s t : FPath) :
    merge_copy_file_with_metadata co mo fs s t =
      if co s t then
        match fsLookup fs s with
        | none => (fs, false)
        | some sf => (fsSet fs t sf, mo s t)
      else (fs, false) := by
  unfold merge_copy_file_with_metadata
  by_cases hco : co s t
  · rw [if_pos hco, if_pos hco]
    cases hs : fsLookup fs s with
    | none => rfl
    | some sf =>
      have hls : fsLookup (fsSet fs t sf) s = some sf := by
        by_cases hst : s = t
        · rw [hst]; exact fsLookup_set_self fs t sf
        · rw [fsLookup_set_ne fs t sf s hst]; exact hs
      by_cases hmo : mo s t
      · simp [hmo, hls, fsLookup_set_self, fsSet_fsSet]
      · have hmo2 : mo s t = false := by
          revert hmo; cases mo s t <;> simp
        simp [hmo2]
  · rw [if_neg hco, if_neg hco]

theorem mem_fsPaths_set_self (fs : FS) (p : FPath) (f : MFile) :
    p ∈ fsPaths (fsSet fs p f) := by
  rw [← fsLookup_isSome_iff_mem_paths, fsLookup_set_self]
  rfl

theorem merge_copy_fs_cases (co mo : FPath → FPath → Bool) (fs : FS)
    (s t : FPath) :
    (merge_copy_file_with_metadata co mo fs s t).1 = fs ∨
    ∃ sf, fsLookup fs s = some sf ∧
      (merge_copy_file_with_metadata co mo fs s t).1 = fsSet fs t sf := by
  rw [merge_copy_eq]
  by_cases hco : co s t
  · rw [if_pos hco]
    cases hs : fsLookup fs s with
    | none => exact Or.inl rfl
    | some sf => exact Or.inr ⟨sf, rfl, rfl⟩
  · rw [if_neg hco]
    exact Or.inl rfl

theorem merge_copy_ok_fs (co mo : FPath → FPath → Bool) (fs : FS)
    (s t : FPath)
    (h : (merge_copy_file_with_metadata co mo fs s t).2 = true) :
    ∃ sf, fsLookup fs s = some sf ∧
      (merge_copy_file_with_metadata co mo fs s t).1 = fsSet fs t sf := by
  rw [merge_copy_eq] at h ⊢
  by_cases hco : co s t
  · rw [if_pos hco] at h ⊢
    cases hs : fsLookup fs s with
    | none => rw [hs] at h; simp at h
    | some sf => exact ⟨sf, rfl, rfl⟩
  · rw [if_neg hco] at h
    simp at h

theorem merge_step_fs (co mo : FPath → FPath → Bool) (sR tR : DirPath)
    (tns : List FName) (st : MergeState) (sf : FPath)
    (htn : lowerN sf.fname ∉ tns) :
    (merge_step co mo sR tR tns st sf).fs =
      (merge_copy_file_with_metadata co mo st.fs sf (merge_target_of sR tR sf)).1 := by
  unfold merge_step
  rw [if_neg htn]
  cases hr : (merge_copy_file_with_metadata co mo st.fs sf (merge_target_of sR tR sf)).2
  · simp [hr]
  · simp [hr]

theorem merge_step_paths_mono (co mo : FPath → FPath → Bool) (sR tR : DirPath)
    (tns : List FName) (st : MergeState) (sf : FPath) (p : FPath)
    (h : p ∈ fsPaths st.fs) :
    p ∈ fsPaths (merge_step co mo sR tR tns st sf).fs := by
  by_cases htn : lowerN sf.fname ∈ tns
  · unfold merge_step
    rw [if_pos htn]
    exact h
  · rw [merge_step_fs co mo sR tR tns st sf htn]
    rcases merge_copy_fs_cases co mo st.fs sf (merge_target_of sR tR sf) with
      hc | ⟨sf2, _, hc⟩
    · rw [hc]; exact h
    · rw [hc]; exact mem_fsPaths_set _ _ _ _ h

theorem merge_fold_paths_mono (co mo : FPath → FPath → Bool)
    (sR tR : DirPath) (tns : List FName) (ss : List FPath) (st : MergeState)
    (p : FPath) (h : p ∈ fsPaths st.fs) :
    p ∈ fsPaths (ss.foldl (merge_step co mo sR tR tns) st).fs := by
  induction ss generalizing st with
  | nil => exact h
  | cons s0 rest ih =>
    rw [List.foldl_cons]
    exact ih _ (merge_step_paths_mono co mo sR tR tns st s0 p h)

theorem merge_step_paths_cases (co mo : FPath → FPath → Bool)
    (sR tR : DirPath) (tns : List FName) (st : MergeState) (sf : FPath)
    (p : FPath) (h : p ∈ fsPaths (merge_step co mo sR tR tns st sf).fs) :
    p ∈ fsPaths st.fs ∨ p = merge_target_of sR tR sf := by
  by_cases htn : lowerN sf.fname ∈ tns
  · unfold merge_step at h
    rw [if_pos htn] at h
    exact Or.inl h
  · rw [merge_step_fs co mo sR tR tns st sf htn] at h
    rcases merge_copy_fs_cases co mo st.fs sf (merge_target_of sR tR sf) with
      hc | ⟨sf2, _, hc⟩
    · rw [hc] at h; exact Or.inl h
    · rw [hc] at h; exact mem_fsPaths_set_cases _ _ _ _ h

theorem merge_fold_paths_cases (co mo : FPath → FPath → Bool)
    (sR tR : DirPath) (tns : List FName) (ss : List FPath) (st : MergeState)
    (p : FPath)
    (h : p ∈ fsPaths (ss.foldl (merge_step co mo sR tR tns) st).fs) :
    p ∈ fsPaths st.fs ∨ ∃ sf ∈ ss, p = merge_target_of sR tR sf := by
  induction ss generalizing st with
  | nil => exact Or.inl h
  | cons s0 rest ih =>
    rw [List.foldl_cons] at h
    rcases ih _ h with hh | ⟨s1, hs1, hp⟩
    · rcases merge_step_paths_cases co mo sR tR tns st s0 p hh with h1 | h1
      · exact Or.inl h1
      · exact Or.inr ⟨s0, List.mem_cons_self _ _, h1⟩
    · exact Or.inr ⟨s1, List.mem_cons_of_mem _ hs1, hp⟩

theorem merge_step_errors (co mo : FPath → FPath → Bool) (sR tR : DirPath)
    (tns : List FName) (st : MergeState) (sf : FPath) :
    (merge_step co mo sR tR tns st sf).errors = st.errors ∨
    (merge_step co mo sR tR tns st sf).errors = st.errors ++ [(sf, merge_msg)] := by
  unfold merge_step
  by_cases htn : lowerN sf.fname ∈ tns
  · rw [if_pos htn]
    exact Or.inl rfl
  · rw [if_neg htn]
    cases hr : (merge_copy_file_with_metadata co mo st.fs sf (merge_target_of sR tR sf)).2
    · simp [hr]
    · simp [hr]

theorem merge_fold_errors_prefix (co mo : FPath → FPath → Bool)
    (sR tR : DirPath) (tns : List FName) (ss : List FPath) (st : MergeState) :
    ∃ l, (ss.foldl (merge_step co mo sR tR tns) st).errors = st.errors ++ l := by
  induction ss generalizing st with
  | nil => exact ⟨[], by simp⟩
  | cons s0 rest ih =>
    rw [List.foldl_cons]
    rcases ih (merge_step co mo sR tR tns st s0) with ⟨l2, hl2⟩
    rcases merge_step_errors co mo sR tR tns st s0 with h1 | h1
    · exact ⟨l2, by rw [hl2, h1]⟩
    · exact ⟨[(s0, merge_msg)] ++ l2, by rw [hl2, h1]; simp⟩

theorem merge_step_no_error_target (co mo : FPath → FPath → Bool)
    (sR tR : DirPath) (tns : List FName) (st : MergeState) (sf : FPath)
    (h : (merge_step co mo sR tR tns st sf).errors = st.errors)
    (htn : lowerN sf.fname ∉ tns) :
    merge_target_of sR tR sf ∈ fsPaths (merge_step co mo sR tR tns st sf).fs := by
  unfold merge_step at h ⊢
  rw [if_neg htn] at h ⊢
  cases hr : (merge_copy_file_with_metadata co mo st.fs sf (merge_target_of sR tR sf)).2
  · exfalso
    simp only [hr] at h
    simp at h
  · simp only [hr]
    rcases merge_copy_ok_fs co mo st.fs sf (merge_target_of sR tR sf) hr with
      ⟨sf2, _, hc⟩
    simp only [if_true]
    show merge_target_of sR tR sf ∈ fsPaths
      (merge_copy_file_with_metadata co mo st.fs sf (merge_target_of sR tR sf)).1
    rw [hc]
    exact mem_fsPaths_set_self _ _ _

theorem merge_fold_processed (co mo : FPath → FPath → Bool)
    (sR tR : DirPath) (tns : List FName) (ss : List FPath) (st : MergeState) :
    (ss.foldl (merge_step co mo sR tR tns) st).errors = st.errors →
    ∀ sf ∈ ss, lowerN sf.fname ∈ tns ∨
      merge_target_of sR tR sf ∈
        fsPaths ((ss.foldl (merge_step co mo sR tR tns) st).fs) := by
  induction ss generalizing st with
  | nil =>
    intro _ sf hsf
    cases hsf
  | cons s0 rest ih =>
    intro h
    rw [List.foldl_cons] at h
    have hstep : (merge_step co mo sR tR tns st s0).errors = st.errors := by
      rcases merge_step_errors co mo sR tR tns st s0 with h1 | h1
      · exact h1
      · exfalso
        rcases merge_fold_errors_prefix co mo sR tR tns rest
          (merge_step co mo sR tR tns st s0) with ⟨l2, hl2⟩
        rw [h1] at hl2
        rw [hl2] at h
        have := congrArg List.length h
        simp at this
    have hrest : (rest.foldl (merge_step co mo sR tR tns)
        (merge_step co mo sR tR tns st s0)).errors =
        (merge_step co mo sR tR tns st s0).errors := by
      rw [h, hstep]
    intro sf hsf
    rw [List.foldl_cons]
    rcases List.mem_cons.mp hsf with heq | hmem
    · subst heq
      by_cases htn : lowerN sf.fname ∈ tns
      · exact Or.inl htn
      · right
        have hmemtgt := merge_step_no_error_target co mo sR tR tns st sf hstep htn
        exact merge_fold_paths_mono co mo sR tR tns rest _ _ hmemtgt
    · exact ih _ hrest sf hmem

theorem merge_step_preserves (co mo : FPath → FPath → Bool) (fs : FS)
    (sR tR : DirPath) (st : MergeState) (sf : FPath)
    (hext : lowerN (suffixN sf.fname) ∈ mergeExts)
    (hP : ∀ p, (fsLookup fs p).isSome → fsLookup st.fs p = fsLookup fs p) :
    ∀ p, (fsLookup fs p).isSome →
      fsLookup (merge_step co mo sR tR (target_names fs tR) st sf).fs p =
        fsLookup fs p := by
  intro p hp
  by_cases htn : lowerN sf.fname ∈ target_names fs tR
  · unfold merge_step
    rw [if_pos htn]
    exact hP p hp
  · rw [merge_step_fs co mo sR tR _ st sf htn]
    rcases merge_copy_fs_cases co mo st.fs sf (merge_target_of sR tR sf) with
      hc | ⟨sf2, _, hc⟩
    · rw [hc]; exact hP p hp
    · rw [hc]
      have hptgt : p ≠ merge_target_of sR tR sf := by
        intro heq
        apply htn
        have hmem : merge_target_of sR tR sf ∈ fsPaths fs := by
          rw [← heq]
          exact (fsLookup_isSome_iff_mem_paths fs p).mp hp
        have hscan : merge_target_of sR tR sf ∈ get_image_files_merge fs tR := by
          rw [get_image_files_merge, mem_scanFiles_iff]
          exact ⟨hmem, ⟨_, rfl⟩, hext⟩
        exact List.mem_map.mpr ⟨_, hscan, rfl⟩
      rw [fsLookup_set_ne st.fs _ sf2 p hptgt]
      exact hP p hp

theorem merge_fold_preserves (co mo : FPath → FPath → Bool) (fs : FS)
    (sR tR : DirPath) (ss : List FPath) (st : MergeState) :
    (∀ sf ∈ ss, lowerN (suffixN sf.fname) ∈ mergeExts) →
    (∀ p, (fsLookup fs p).isSome → fsLookup st.fs p = fsLookup fs p) →
    ∀ p, (fsLookup fs p).isSome →
      fsLookup ((ss.foldl (merge_step co mo sR tR (target_names fs tR)) st).fs) p =
        fsLookup fs p := by
  induction ss generalizing st with
  | nil =>
    intro _ hP p hp
    exact hP p hp
  | cons s0 rest ih =>
    intro hext hP p hp
    rw [List.foldl_cons]
    exact ih _ (fun sf hs => hext sf (List.mem_cons_of_mem _ hs))
      (merge_step_preserves co mo fs sR tR st s0
        (hext s0 (List.mem_cons_self _ _)) hP) p hp

theorem merge_fold_id (co mo : FPath → FPath → Bool) (sR tR : DirPath)
    (tns : List FName) (ss : List FPath) (st : MergeState) :
    (∀ sf ∈ ss, lowerN sf.fname ∈ tns) →
    ss.foldl (merge_step co mo sR tR tns) st = st := by
  induction ss generalizing st with
  | nil => intro _; rfl
  | cons s0 rest ih =>
    intro h
    rw [List.foldl_cons]
    have hstep : merge_step co mo sR tR tns st s0 = st := by
      unfold merge_step
      rw [if_pos (h s0 (List.mem_cons_self _ _))]
    rw [hstep]
    exact ih st (fun sf hs => h sf (List.mem_cons_of_mem _ hs))

/-- C6: merge never overwrites — an asset whose lowercased name is already
present in the target is skipped outright, every pre-existing file keeps
its exact content, and after an error-free run a second run over the same
trees copies nothing and leaves the filesystem unchanged. -/
theorem merge_never_overwrites_and_idempotent (co mo : FPath → FPath → Bool)
    (fs : FS) (sR tR : DirPath) :
    (∀ (tns : List FName) (st : MergeState) (sf : FPath),
      lowerN sf.fname ∈ tns → merge_step co mo sR tR tns st sf = st) ∧
    (∀ p, (fsLookup fs p).isSome →
      fsLookup (merge_photos co mo fs sR tR).fs p = fsLookup fs p) ∧
    ((merge_photos co mo fs sR tR).errors = [] →
      merge_photos co mo (merge_photos co mo fs sR tR).fs sR tR =
        ⟨(merge_photos co mo fs sR tR).fs, 0, []⟩) := by
  refine ⟨?_, ?_, ?_⟩
  · intro tns st sf h
    unfold merge_step
    rw [if_pos h]
  · intro p hp
    exact merge_fold_preserves co mo fs sR tR (get_image_files_merge fs sR)
      ⟨fs, 0, []⟩
      (fun sf hs => ((mem_scanFiles_iff fs sR mergeExts sf).mp hs).2.2)
      (fun q _ => rfl) p hp
  · intro herr
    have hnames : ∀ sf ∈ get_image_files_merge (merge_photos co mo fs sR tR).fs sR,
        lowerN sf.fname ∈ target_names (merge_photos co mo fs sR tR).fs tR := by
      intro sf hsf
      have hprops := (mem_scanFiles_iff _ sR mergeExts sf).mp hsf
      rcases merge_fold_paths_cases co mo sR tR (target_names fs tR)
        (get_image_files_merge fs sR) ⟨fs, 0, []⟩ sf hprops.1 with
        hold | ⟨s0, hs0, htgt⟩
      · have hss1 : sf ∈ get_image_files_merge fs sR := by
          rw [get_image_files_merge, mem_scanFiles_iff]
          exact ⟨hold, hprops.2.1, hprops.2.2⟩
        have hproc := merge_fold_processed co mo sR tR (target_names fs tR)
          (get_image_files_merge fs sR) ⟨fs, 0, []⟩ herr sf hss1
        rcases hproc with htn | htgt1
        · rcases List.mem_map.mp htn with ⟨q, hq, hqn⟩
          have hqprops := (mem_scanFiles_iff fs tR mergeExts q).mp hq
          have hq2 : q ∈ get_image_files_merge (merge_photos co mo fs sR tR).fs tR := by
            rw [get_image_files_merge, mem_scanFiles_iff]
            exact ⟨merge_fold_paths_mono co mo sR tR _ _ _ q hqprops.1,
              hqprops.2.1, hqprops.2.2⟩
          exact List.mem_map.mpr ⟨q, hq2, hqn⟩
        · have htgt2 : merge_target_of sR tR sf ∈
              get_image_files_merge (merge_photos co mo fs sR tR).fs tR := by
            rw [get_image_files_merge, mem_scanFiles_iff]
            exact ⟨htgt1, ⟨_, rfl⟩, hprops.2.2⟩
          exact List.mem_map.mpr ⟨_, htgt2, rfl⟩
      · have hsf_t : sf ∈ get_image_files_merge (merge_photos co mo fs sR tR).fs tR := by
          rw [get_image_files_merge, mem_scanFiles_iff]
          refine ⟨hprops.1, ?_, hprops.2.2⟩
          rw [htgt]
          exact ⟨_, rfl⟩
        exact List.mem_map.mpr ⟨sf, hsf_t, rfl⟩
    exact merge_fold_id co mo sR tR _ _ _ hnames

/-- Witness for C6 at a concrete input: one source asset, empty target;
the first run errors out nowhere, the second run is the identity. -/
theorem merge_never_overwrites_and_idempotent_witness :
    merge_step okOracle okOracle srcRootM tgtRootM [lowerN srcPathM.fname]
        ⟨[(srcPathM, fileM)], 0, []⟩ srcPathM = ⟨[(srcPathM, fileM)], 0, []⟩ ∧
    fsLookup (merge_photos okOracle okOracle [(srcPathM, fileM)] srcRootM tgtRootM).fs
        srcPathM = fsLookup [(srcPathM, fileM)] srcPathM ∧
    merge_photos okOracle okOracle
        (merge_photos okOracle okOracle [(srcPathM, fileM)] srcRootM tgtRootM).fs
        srcRootM tgtRootM =
      ⟨(merge_photos okOracle okOracle [(srcPathM, fileM)] srcRootM tgtRootM).fs,
        0, []⟩ := by
  have h := merge_never_overwrites_and_idempotent okOracle okOracle
    [(srcPathM, fileM)] srcRootM tgtRootM
  exact ⟨h.1 _ _ _ (by decide), h.2.1 srcPathM (by decide), h.2.2 (by decide)⟩

/-- C10: when the byte copy into the target succeeds but the metadata
transplant fails, the new target file stays in place with the source's
content, the item is recorded as a failure (copied count unchanged, error
appended), and the asset's lowercased name is now among the target names,
so a subsequent merge run skips it. -/
theorem merge_metadata_failure_not_atomic (co mo : FPath → FPath → Bool)
    (sR tR : DirPath) (tns : List FName) (st : MergeState) (sf : FPath)
    (f : MFile)
    (hf : fsLookup st.fs sf = some f)
    (htn : lowerN sf.fname ∉ tns)
    (hco : co sf (merge_target_of sR tR sf) = true)
    (hmo : mo sf (merge_target_of sR tR sf) = false)
    (hext : lowerN (suffixN sf.fname) ∈ mergeExts) :
    fsLookup (merge_step co mo sR tR tns st sf).fs (merge_target_of sR tR sf) =
      some f ∧
    (merge_step co mo sR tR tns st sf).copied = st.copied ∧
    (merge_step co mo sR tR tns st sf).errors = st.errors ++ [(sf, merge_msg)] ∧
    lowerN sf.fname ∈ target_names (merge_step co mo sR tR tns st sf).fs tR := by
  have hcopy : merge_copy_file_with_metadata co mo st.fs sf (merge_target_of sR tR sf) =
      (fsSet st.fs (merge_target_of sR tR sf) f, false) := by
    rw [merge_copy_eq, if_pos hco, hf]
    simp [hmo]
  have hstep : merge_step co mo sR tR tns st sf =
      ⟨fsSet st.fs (merge_target_of sR tR sf) f, st.copied,
        st.errors ++ [(sf, merge_msg)]⟩ := by
    unfold merge_step
    rw [if_neg htn]
    simp [hcopy]
  rw [hstep]
  refine ⟨fsLookup_set_self _ _ _, rfl, rfl, ?_⟩
  have htgt : merge_target_of sR tR sf ∈
      get_image_files_merge (fsSet st.fs (merge_target_of sR tR sf) f) tR := by
    rw [get_image_files_merge, mem_scanFiles_iff]
    exact ⟨mem_fsPaths_set_self _ _ _, ⟨_, rfl⟩, hext⟩
  exact List.mem_map.mpr ⟨_, htgt, rfl⟩

/-- Witness for C10 at a concrete input: byte copy succeeds, metadata
transplant fails, the half-copied target remains and is skipped next
time. -/
theorem merge_metadata_failure_not_atomic_witness :
    fsLookup (merge_step okOracle noneOracle srcRootM tgtRootM []
        ⟨[(srcPathM, fileM)], 0, []⟩ srcPathM).fs
      (merge_target_of srcRootM tgtRootM srcPathM) = some fileM ∧
    (merge_step okOracle noneOracle srcRootM tgtRootM []
        ⟨[(srcPathM, fileM)], 0, []⟩ srcPathM).copied = 0 ∧
    (merge_step okOracle noneOracle srcRootM tgtRootM []
        ⟨[(srcPathM, fileM)], 0, []⟩ srcPathM).errors =
      [] ++ [(srcPathM, merge_msg)] ∧
    lowerN srcPathM.fname ∈ target_names (merge_step okOracle noneOracle
        srcRootM tgtRootM [] ⟨[(srcPathM, fileM)], 0, []⟩ srcPathM).fs tgtRootM := by
  exact merge_metadata_failure_not_atomic okOracle noneOracle srcRootM tgtRootM
    [] ⟨[(srcPathM, fileM)], 0, []⟩ srcPathM fileM (by decide) (by decide)
    (by decide) (by decide) (by decide)


theorem sufStart_le (f : FName) : sufStart f ≤ f.length := by
  unfold sufStart
  split
  · omega
  · exact Nat.le_refl _

theorem withSuffixJpg_length (f : FName) :
    (withSuffixJpg f).length = sufStart f + 4 := by
  unfold withSuffixJpg stemN
  rw [List.length_append, List.length_take, Nat.min_eq_left (sufStart_le f)]
  rfl

theorem jpg_name_ne (f : FName) (h : lowerN (suffixN f) = ".heic".toList) :
    withSuffixJpg f ≠ f := by
  intro heq
  have hlen5 : (suffixN f).length = 5 := by
    have h2 := congrArg List.length h
    unfold lowerN at h2
    rw [List.length_map] at h2
    exact h2
  have hsuf : (suffixN f).length = f.length - sufStart f := by
    unfold suffixN
    exact List.length_drop _ _
  have hle := sufStart_le f
  have hlen := congrArg List.length heq
  rw [withSuffixJpg_length] at hlen
  omega

theorem jpg_path_ne (h : FPath) (hs : lowerN (suffixN h.fname) = ".heic".toList) :
    jpg_path_of h ≠ h := by
  intro heq
  exact jpg_name_ne h.fname hs (congrArg FPath.fname heq)

theorem copy_metadata_ok (mo : FPath → FPath → Bool) (fs : FS)
    (heic jpg : FPath)
    (h : (copy_metadata_to_jpg mo fs heic jpg).2 = true) :
    ∃ mf jf, fsLookup fs heic = some mf ∧ fsLookup fs jpg = some jf ∧
      (copy_metadata_to_jpg mo fs heic jpg).1 =
        fsSet fs jpg { jf with meta := metaSet mf.meta orientation_tag "1".toList } := by
  unfold copy_metadata_to_jpg at h ⊢
  by_cases hmo : mo heic jpg
  · rw [if_pos hmo] at h ⊢
    cases hm : fsLookup fs heic with
    | none => rw [hm] at h; simp at h
    | some mf =>
      cases hj : fsLookup fs jpg with
      | none => rw [hj] at h; simp at h
      | some jf => exact ⟨mf, jf, rfl, rfl, rfl⟩
  · rw [if_neg hmo] at h
    simp at h

theorem copy_metadata_eq (mo : FPath → FPath → Bool) (fs : FS)
    (heic jpg : FPath) (mf jf : MFile)
    (hm : fsLookup fs heic = some mf) (hj : fsLookup fs jpg = some jf)
    (hmo : mo heic jpg = true) :
    copy_metadata_to_jpg mo fs heic jpg =
      (fsSet fs jpg { jf with meta := metaSet mf.meta orientation_tag "1".toList },
        true) := by
  unfold copy_metadata_to_jpg
  rw [if_pos hmo, hm, hj]

theorem conv_step_general (dk : FPath → Bool) (mo : FPath → FPath → Bool)
    (del : Bool) (st : ConvState) (heic : FPath) (hf : MFile) (fs0 : FS)
    (hlook : fsLookup st.fs heic = some hf)
    (hfs0 : fs0 = if has_edits hf
      then fsSet st.fs (jpg_path_of heic) ⟨hf.preview, [], []⟩ else st.fs) :
    conv_step dk mo del st heic =
      if conv_needFull fs0 (jpg_path_of heic) then
        if dk heic then
          conv_meta_step mo del heic (jpg_path_of heic)
            ⟨fsSet fs0 (jpg_path_of heic) ⟨full_decode_bytes hf.bytes, [], []⟩,
              st.converted, st.edited, st.original + 1, st.errors⟩
        else ⟨fs0, st.converted, st.edited, st.original,
          st.errors ++ [(heic, exc_msg)]⟩
      else conv_meta_step mo del heic (jpg_path_of heic)
        ⟨fs0, st.converted, st.edited + 1, st.original, st.errors⟩ := by
  subst hfs0
  unfold conv_step
  rw [hlook]

theorem conv_fs0_heic (st : ConvState) (heic : FPath) (hf : MFile)
    (hne : heic ≠ jpg_path_of heic)
    (hlook : fsLookup st.fs heic = some hf) :
    fsLookup (if has_edits hf
      then fsSet st.fs (jpg_path_of heic) ⟨hf.preview, [], []⟩ else st.fs)
      heic = some hf := by
  by_cases hed : has_edits hf = true
  · rw [if_pos hed, fsLookup_set_ne _ _ _ _ hne]
    exact hlook
  · rw [if_neg hed]
    exact hlook

theorem conv_meta_succ (mo : FPath → FPath → Bool) (del : Bool)
    (heic jpg : FPath) (st2 : ConvState) (hf : MFile)
    (hne : heic ≠ jpg)
    (h2 : fsLookup st2.fs heic = some hf)
    (hsucc : (conv_meta_step mo del heic jpg st2).converted = st2.converted + 1) :
    ∃ jf, fsLookup (conv_meta_step mo del heic jpg st2).fs jpg = some jf ∧
      jf.meta = metaSet hf.meta orientation_tag "1".toList := by
  by_cases hr : (copy_metadata_to_jpg mo st2.fs heic jpg).2 = true
  · rcases copy_metadata_ok mo st2.fs heic jpg hr with ⟨mf, jf, hm, hj, hfs⟩
    have hmf : mf = hf := by
      rw [hm] at h2
      exact Option.some.inj h2
    unfold conv_meta_step
    rw [if_pos hr]
    refine ⟨{ jf with meta := metaSet mf.meta orientation_tag "1".toList }, ?_,
      by rw [hmf]⟩
    show fsLookup (if del then
      fsErase (copy_metadata_to_jpg mo st2.fs heic jpg).1 heic
      else (copy_metadata_to_jpg mo st2.fs heic jpg).1) jpg = _
    by_cases hdel : del = true
    · rw [if_pos hdel, fsLookup_erase_ne _ _ _ (fun hh => hne hh.symm), hfs,
        fsLookup_set_self]
    · rw [if_neg hdel, hfs, fsLookup_set_self]
  · have hr2 : (copy_metadata_to_jpg mo st2.fs heic jpg).2 = false := by
      revert hr
      cases (copy_metadata_to_jpg mo st2.fs heic jpg).2 <;> simp
    unfold conv_meta_step at hsucc
    rw [if_neg hr] at hsucc
    simp at hsucc

/-- C7: whenever one conversion iteration counts a success — on the
preview fast path, the full-decode path, and with or without deletion of
the original — the produced jpg carries ALL tags of the source HEIC with
the orientation tag forced to 1. -/
theorem converter_tags_and_orientation (dk : FPath → Bool)
    (mo : FPath → FPath → Bool) (del : Bool) (st : ConvState) (heic : FPath)
    (hf : MFile)
    (hlook : fsLookup st.fs heic = some hf)
    (hsuf : lowerN (suffixN heic.fname) = ".heic".toList)
    (hsucc : (conv_step dk mo del st heic).converted = st.converted + 1) :
    ∃ jf, fsLookup (conv_step dk mo del st heic).fs (jpg_path_of heic) =
        some jf ∧
      jf.meta = metaSet hf.meta orientation_tag "1".toList := by
  have hne : jpg_path_of heic ≠ heic := jpg_path_ne heic hsuf
  have hneq : heic ≠ jpg_path_of heic := fun hh => hne hh.symm
  rw [conv_step_general dk mo del st heic hf _ hlook rfl] at hsucc ⊢
  by_cases hnf : conv_needFull (if has_edits hf
      then fsSet st.fs (jpg_path_of heic) ⟨hf.preview, [], []⟩ else st.fs)
      (jpg_path_of heic) = true
  · rw [if_pos hnf] at hsucc ⊢
    by_cases hdk : dk heic = true
    · rw [if_pos hdk] at hsucc ⊢
      refine conv_meta_succ mo del heic (jpg_path_of heic) _ hf hneq ?_ hsucc
      show fsLookup (fsSet _ (jpg_path_of heic) _) heic = some hf
      rw [fsLookup_set_ne _ _ _ _ hneq]
      exact conv_fs0_heic st heic hf hneq hlook
    · rw [if_neg hdk] at hsucc
      simp at hsucc
  · rw [if_neg hnf] at hsucc ⊢
    exact conv_meta_succ mo del heic (jpg_path_of heic) _ hf hneq
      (conv_fs0_heic st heic hf hneq hlook) hsucc

/-- Witness for C7 at a concrete input: converting an unedited HEIC with
a date tag, the produced jpg carries the tag set with orientation 1. -/
theorem converter_tags_and_orientation_witness :
    ∃ jf, fsLookup (conv_step okDecode okOracle false
        ⟨[(heicPathC, heicFileC)], 0, 0, 0, []⟩ heicPathC).fs
      (jpg_path_of heicPathC) = some jf ∧
      jf.meta = metaSet heicFileC.meta orientation_tag "1".toList := by
  exact converter_tags_and_orientation okDecode okOracle false
    ⟨[(heicPathC, heicFileC)], 0, 0, 0, []⟩ heicPathC heicFileC
    (by decide) (by decide) (by decide)

/-- C8: an edited asset whose extractable preview is empty falls back to
the full decode: the original tally is bumped (not the edited one), the
conversion still succeeds, and the jpg carries the source's tags with
orientation 1 over the freshly decoded bytes. -/
theorem converter_zero_preview_falls_back (dk : FPath → Bool)
    (mo : FPath → FPath → Bool) (del : Bool) (st : ConvState) (heic : FPath)
    (hf : MFile)
    (hlook : fsLookup st.fs heic = some hf)
    (hsuf : lowerN (suffixN heic.fname) = ".heic".toList)
    (hed : has_edits hf = true)
    (hprev : hf.preview = [])
    (hdk : dk heic = true)
    (hmo : mo heic (jpg_path_of heic) = true) :
    (conv_step dk mo del st heic).original = st.original + 1 ∧
    (conv_step dk mo del st heic).edited = st.edited ∧
    (conv_step dk mo del st heic).converted = st.converted + 1 ∧
    fsLookup (conv_step dk mo del st heic).fs (jpg_path_of heic) =
      some ⟨full_decode_bytes hf.bytes, [],
        metaSet hf.meta orientation_tag "1".toList⟩ := by
  have hne : jpg_path_of heic ≠ heic := jpg_path_ne heic hsuf
  have hneq : heic ≠ jpg_path_of heic := fun hh => hne hh.symm
  rw [conv_step_general dk mo del st heic hf _ hlook rfl]
  have hfs0 : (if has_edits hf
      then fsSet st.fs (jpg_path_of heic) ⟨hf.preview, [], []⟩ else st.fs)
      = fsSet st.fs (jpg_path_of heic) ⟨[], [], []⟩ := by
    rw [if_pos hed, hprev]
  rw [hfs0]
  have hnf : conv_needFull (fsSet st.fs (jpg_path_of heic) ⟨[], [], []⟩)
      (jpg_path_of heic) = true := by
    unfold conv_needFull
    rw [fsLookup_set_self]
    rfl
  rw [if_pos hnf, if_pos hdk, fsSet_fsSet]
  have hA : fsLookup (fsSet st.fs (jpg_path_of heic)
      ⟨full_decode_bytes hf.bytes, [], []⟩) heic = some hf := by
    rw [fsLookup_set_ne _ _ _ _ hneq]
    exact hlook
  have hAj : fsLookup (fsSet st.fs (jpg_path_of heic)
      ⟨full_decode_bytes hf.bytes, [], []⟩) (jpg_path_of heic) =
      some ⟨full_decode_bytes hf.bytes, [], []⟩ := fsLookup_set_self _ _ _
  have hcme := copy_metadata_eq mo (fsSet st.fs (jpg_path_of heic)
      ⟨full_decode_bytes hf.bytes, [], []⟩) heic (jpg_path_of heic) hf
    ⟨full_decode_bytes hf.bytes, [], []⟩ hA hAj hmo
  unfold conv_meta_step
  rw [hcme]
  refine ⟨rfl, rfl, rfl, ?_⟩
  show fsLookup (if del then fsErase (fsSet (fsSet st.fs (jpg_path_of heic)
      ⟨full_decode_bytes hf.bytes, [], []⟩) (jpg_path_of heic)
      ⟨full_decode_bytes hf.bytes, [],
        metaSet hf.meta orientation_tag "1".toList⟩) heic
    else fsSet (fsSet st.fs (jpg_path_of heic)
      ⟨full_decode_bytes hf.bytes, [], []⟩) (jpg_path_of heic)
      ⟨full_decode_bytes hf.bytes, [],
        metaSet hf.meta orientation_tag "1".toList⟩) (jpg_path_of heic) = _
  by_cases hdel : del = true
  · rw [if_pos hdel, fsLookup_erase_ne _ _ _ hne, fsLookup_set_self]
  · rw [if_neg hdel, fsLookup_set_self]

/-- Witness for C8 at a concrete input: `IMG_3.HEIC` with `HasCrop` set
and an empty preview is decoded in full, tallied as original, and its jpg
keeps the date tag with orientation 1. -/
theorem converter_zero_preview_falls_back_witness :
    (conv_step okDecode okOracle false
      ⟨[(heicPathC, editedFileC)], 0, 0, 0, []⟩ heicPathC).original = 0 + 1 ∧
    (conv_step okDecode okOracle false
      ⟨[(heicPathC, editedFileC)], 0, 0, 0, []⟩ heicPathC).edited = 0 ∧
    (conv_step okDecode okOracle false
      ⟨[(heicPathC, editedFileC)], 0, 0, 0, []⟩ heicPathC).converted = 0 + 1 ∧
    fsLookup (conv_step okDecode okOracle false
        ⟨[(heicPathC, editedFileC)], 0, 0, 0, []⟩ heicPathC).fs
      (jpg_path_of heicPathC) =
      some ⟨full_decode_bytes editedFileC.bytes, [],
        metaSet editedFileC.meta orientation_tag "1".toList⟩ := by
  exact converter_zero_preview_falls_back okDecode okOracle false
    ⟨[(heicPathC, editedFileC)], 0, 0, 0, []⟩ heicPathC editedFileC
    (by decide) (by decide) (by decide) (by decide) (by decide) (by decide)


theorem copy_none_ok (co mo : FPath → FPath → Bool) (fs : FS) (s t : FPath)
    (h : (copy_file_with_metadata co mo fs s t none).2 = true) :
    ∃ sf, fsLookup fs s = some sf ∧
      (copy_file_with_metadata co mo fs s t none).1 = fsSet fs t sf := by
  rw [copy_none_eq] at h ⊢
  by_cases hco : co s t
  · rw [if_pos hco] at h ⊢
    cases hs : fsLookup fs s with
    | none => rw [hs] at h; simp at h
    | some sf => exact ⟨sf, rfl, rfl⟩
  · rw [if_neg hco] at h
    simp at h

theorem replace_step_bk_false (co mo : FPath → FPath → Bool) (pr : DirPath)
    (st : RepState) (m : FPath × FPath)
    (hf : (copy_file_with_metadata co mo st.fs m.1 (backup_path pr m.1) none).2 =
      false) :
    replace_step co mo pr st m =
      ⟨(copy_file_with_metadata co mo st.fs m.1 (backup_path pr m.1) none).1,
        st.count, st.errors ++ [(m.1, backup_msg)]⟩ := by
  unfold replace_step
  simp [hf]

theorem replace_step_fs_of_bk (co mo : FPath → FPath → Bool) (pr : DirPath)
    (st : RepState) (m : FPath × FPath)
    (hbk : (copy_file_with_metadata co mo st.fs m.1 (backup_path pr m.1) none).2 =
      true) :
    (replace_step co mo pr st m).fs =
      (copy_file_with_metadata co mo
        (copy_file_with_metadata co mo st.fs m.1 (backup_path pr m.1) none).1
        m.2 m.1 (some m.1)).1 := by
  unfold replace_step
  cases hrp : (copy_file_with_metadata co mo
      (copy_file_with_metadata co mo st.fs m.1 (backup_path pr m.1) none).1
      m.2 m.1 (some m.1)).2 <;>
    simp [hbk, hrp]

theorem replace_writes_backup_first (co mo : FPath → FPath → Bool)
    (pr : DirPath) (st : RepState) (m : FPath × FPath)
    (hnb : m.1 ≠ backup_path pr m.1)
    (hch : fsLookup (replace_step co mo pr st m).fs m.1 ≠ fsLookup st.fs m.1) :
    fsLookup (replace_step co mo pr st m).fs (backup_path pr m.1) =
      fsLookup st.fs m.1 := by
  by_cases hbk : (copy_file_with_metadata co mo st.fs m.1
      (backup_path pr m.1) none).2 = true
  · rcases copy_none_ok co mo st.fs m.1 (backup_path pr m.1) hbk with
      ⟨sf, hsf, hbk1⟩
    rw [replace_step_fs_of_bk co mo pr st m hbk,
      copy_only_target co mo _ m.2 m.1 (some m.1) (backup_path pr m.1)
        (fun hh => hnb hh.symm),
      hbk1, fsLookup_set_self, hsf]
  · exfalso
    apply hch
    have hf : (copy_file_with_metadata co mo st.fs m.1
        (backup_path pr m.1) none).2 = false := by
      revert hbk
      cases (copy_file_with_metadata co mo st.fs m.1 (backup_path pr m.1) none).2 <;>
        simp
    rw [replace_step_bk_false co mo pr st m hf]
    exact copy_none_source_unchanged co mo st.fs m.1 (backup_path pr m.1)

theorem copy_metadata_fs_cases (mo : FPath → FPath → Bool) (fs : FS)
    (heic jpg : FPath) :
    (copy_metadata_to_jpg mo fs heic jpg).1 = fs ∨
    ∃ x, (copy_metadata_to_jpg mo fs heic jpg).1 = fsSet fs jpg x := by
  unfold copy_metadata_to_jpg
  by_cases hmo : mo heic jpg
  · rw [if_pos hmo]
    cases hm : fsLookup fs heic with
    | none => exact Or.inl rfl
    | some mf =>
      cases hj : fsLookup fs jpg with
      | none => exact Or.inl rfl
      | some jf => exact Or.inr ⟨_, rfl⟩
  · rw [if_neg hmo]
    exact Or.inl rfl

theorem conv_meta_step_paths (mo : FPath → FPath → Bool) (del : Bool)
    (heic jpg : FPath) (st2 : ConvState) (p : FPath)
    (h : p ∈ fsPaths (conv_meta_step mo del heic jpg st2).fs) :
    p ∈ fsPaths st2.fs ∨ p = jpg := by
  unfold conv_meta_step at h
  by_cases hr : (copy_metadata_to_jpg mo st2.fs heic jpg).2 = true
  · rw [if_pos hr] at h
    have h2 : p ∈ fsPaths (copy_metadata_to_jpg mo st2.fs heic jpg).1 := by
      by_cases hdel : del = true
      · rw [if_pos hdel] at h
        exact mem_fsPaths_erase _ _ _ h
      · rw [if_neg hdel] at h
        exact h
    rcases copy_metadata_fs_cases mo st2.fs heic jpg with hc | ⟨x, hc⟩
    · rw [hc] at h2; exact Or.inl h2
    · rw [hc] at h2; exact mem_fsPaths_set_cases _ _ _ _ h2
  · rw [if_neg hr] at h
    rcases copy_metadata_fs_cases mo st2.fs heic jpg with hc | ⟨x, hc⟩
    · rw [hc] at h; exact Or.inl h
    · rw [hc] at h; exact mem_fsPaths_set_cases _ _ _ _ h

theorem conv_step_paths (dk : FPath → Bool) (mo : FPath → FPath → Bool)
    (del : Bool) (st : ConvState) (heic : FPath) (p : FPath)
    (h : p ∈ fsPaths (conv_step dk mo del st heic).fs) :
    p ∈ fsPaths st.fs ∨ p = jpg_path_of heic := by
  cases hl : fsLookup st.fs heic with
  | none =>
    unfold conv_step at h
    rw [hl] at h
    exact Or.inl h
  | some hf =>
    rw [conv_step_general dk mo del st heic hf _ hl rfl] at h
    have hfs0paths : ∀ q, q ∈ fsPaths (if has_edits hf
        then fsSet st.fs (jpg_path_of heic) ⟨hf.preview, [], []⟩ else st.fs) →
        q ∈ fsPaths st.fs ∨ q = jpg_path_of heic := by
      intro q hq
      by_cases hed : has_edits hf = true
      · rw [if_pos hed] at hq
        exact mem_fsPaths_set_cases _ _ _ _ hq
      · rw [if_neg hed] at hq
        exact Or.inl hq
    by_cases hnf : conv_needFull (if has_edits hf
        then fsSet st.fs (jpg_path_of heic) ⟨hf.preview, [], []⟩ else st.fs)
        (jpg_path_of heic) = true
    · rw [if_pos hnf] at h
      by_cases hdk : dk heic = true
      · rw [if_pos hdk] at h
        rcases conv_meta_step_paths mo del heic (jpg_path_of heic) _ p h with
          h1 | h1
        · rcases mem_fsPaths_set_cases _ _ _ _ h1 with h2 | h2
          · exact hfs0paths p h2
          · exact Or.inr h2
        · exact Or.inr h1
      · rw [if_neg hdk] at h
        exact hfs0paths p h
    · rw [if_neg hnf] at h
      rcases conv_meta_step_paths mo del heic (jpg_path_of heic) _ p h with
        h1 | h1
      · exact hfs0paths p h1
      · exact Or.inr h1

theorem conv_fold_paths (dk : FPath → Bool) (mo : FPath → FPath → Bool)
    (del : Bool) (ss : List FPath) (st : ConvState) (p : FPath) :
    p ∈ fsPaths ((ss.foldl (conv_step dk mo del) st).fs) →
    p ∈ fsPaths st.fs ∨ ∃ hp ∈ ss, p = jpg_path_of hp := by
  induction ss generalizing st with
  | nil => intro h; exact Or.inl h
  | cons h0 rest ih =>
    intro h
    rw [List.foldl_cons] at h
    rcases ih _ h with h1 | ⟨hp, hmem, hpe⟩
    · rcases conv_step_paths dk mo del st h0 p h1 with h2 | h2
      · exact Or.inl h2
      · exact Or.inr ⟨h0, List.mem_cons_self _ _, h2⟩
    · exact Or.inr ⟨hp, List.mem_cons_of_mem _ hmem, hpe⟩

theorem mov_fold_sublist (dir : DirPath) (bs : List FName) (acc fs : FS)
    (h : acc.Sublist fs) :
    (bs.foldl (fun a base =>
      if (fsLookup a ⟨dir, base ++ ".MOV".toList⟩).isSome
      then fsErase a ⟨dir, base ++ ".MOV".toList⟩ else a) acc).Sublist fs := by
  induction bs generalizing acc with
  | nil => exact h
  | cons b rest ih =>
    rw [List.foldl_cons]
    apply ih
    by_cases hx : (fsLookup acc ⟨dir, b ++ ".MOV".toList⟩).isSome = true
    · rw [if_pos hx]
      exact (fsErase_sublist acc _).trans h
    · rw [if_neg hx]
      exact h

theorem mov_deleter_only_deletes (fs : FS) (dir : DirPath) :
    (mov_deleter fs dir).Sublist fs := by
  unfold mov_deleter
  exact mov_fold_sublist dir _ fs fs (List.Sublist.refl fs)

/-- C2 counterexample: running the MOV cleanup on a directory holding
`IMG_2.HEIC` and `IMG_2.MOV` deletes the MOV outright; the resulting
filesystem is exactly the input minus the MOV entry, so no pre-operation
copy of the deleted bytes was placed anywhere — in particular not in any
backup subdirectory — before the destructive step. -/
theorem mov_cleanup_never_backs_up :
    mov_deleter [(heicPathD, heicFileD), (movPathD, movFileD)] movDirD =
      [(heicPathD, heicFileD)] := by
  decide

/-- C2 amended: the backup-before-destruction guarantee is carried by the
Reconciler only.  The companion-file cleanup never creates or modifies a
file (its result is a sublist of its input, so the MOVs it removes are
backed up nowhere); the Converter creates nothing beyond the converted
jpg outputs (so the originals deleted by `delete_original` have no backup
copy); and Replace mode does write the pre-operation primary content to
the backup path before any destructive change to the primary asset. -/
theorem backup_before_destruction_scope :
    (∀ (fs : FS) (dir : DirPath), (mov_deleter fs dir).Sublist fs) ∧
    (∀ (dk : FPath → Bool) (mo : FPath → FPath → Bool) (fs : FS)
      (root : DirPath) (del : Bool) (p : FPath),
      p ∈ fsPaths (convert_heic_to_jpg dk mo fs root del).fs →
      p ∈ fsPaths fs ∨ ∃ hp ∈ heic_scan fs root, p = jpg_path_of hp) ∧
    (∀ (co mo : FPath → FPath → Bool) (pr : DirPath) (st : RepState)
      (m : FPath × FPath),
      m.1 ≠ backup_path pr m.1 →
      fsLookup (replace_step co mo pr st m).fs m.1 ≠ fsLookup st.fs m.1 →
      fsLookup (replace_step co mo pr st m).fs (backup_path pr m.1) =
        fsLookup st.fs m.1) := by
  refine ⟨mov_deleter_only_deletes, ?_, replace_writes_backup_first⟩
  intro dk mo fs root del p h
  exact conv_fold_paths dk mo del (heic_scan fs root) ⟨fs, 0, 0, 0, []⟩ p h

/-- Witness for C2's amended statement at concrete inputs: the MOV
cleanup result is a sublist of its input; a converted jpg path is
accounted for by the scan; and a replaced primary has its pre-state at
the backup path. -/
theorem backup_before_destruction_scope_witness :
    (mov_deleter [(heicPathD, heicFileD), (movPathD, movFileD)] movDirD).Sublist
      [(heicPathD, heicFileD), (movPathD, movFileD)] ∧
    ((⟨heicRootC, "IMG_3.jpg".toList⟩ : FPath) ∈
        fsPaths [(heicPathC, heicFileC)] ∨
      ∃ hp ∈ heic_scan [(heicPathC, heicFileC)] heicRootC,
        (⟨heicRootC, "IMG_3.jpg".toList⟩ : FPath) = jpg_path_of hp) ∧
    fsLookup (replace_step okOracle okOracle phoneRootX ⟨fsX, 0, []⟩
        (phonePathX, camPathX)).fs (backup_path phoneRootX phonePathX) =
      fsLookup fsX phonePathX := by
  have h := backup_before_destruction_scope
  refine ⟨h.1 _ _, ?_, ?_⟩
  · exact h.2.1 okDecode okOracle [(heicPathC, heicFileC)] heicRootC true
      ⟨heicRootC, "IMG_3.jpg".toList⟩ (by decide)
  · exact h.2.2 okOracle okOracle phoneRootX ⟨fsX, 0, []⟩ (phonePathX, camPathX)
      (by decide) (by decide)

end PhotoFns
